import Mathlib

/-!
Shallow embedding of the `lockless` library: the single-producer
single-consumer bounded lockless queue
(src/single-producer-single-consumer-bounded-lockless-queue.h), the
unbounded lockless queue
(src/single-producer-single-consumer-lockless-queue.h) and the memory pool
(src/memory-pool.h), together with theorems settling the frozen claims.

Modelling conventions, faithful to the sequential semantics of the C++:
atomic loads and stores become plain state reads and updates (single-thread
interleavings only; the memory-ordering annotations themselves are not
modelled); `int` indices become `Nat` (every reachable index lies in
`[0, capacity)`); heap addresses become `Nat` identifiers drawn from a
fresh-address counter; a function falling off the end of a non-void
function (undefined behaviour in C++) is modelled by returning `none` for
the return value while still performing the stores that precede it.
-/

namespace lockless

/-! ## SingleProducerSingleConsumerBoundedLockLessQueue

State of the bounded queue: the two cursors `first_` and `next_write_`,
the buffer length `capacity_`, and the circular buffer `queue_` (a total
function; the constructor leaves the slots default-initialized, which we
model by taking the initial contents as a parameter). -/

structure SingleProducerSingleConsumerBoundedLockLessQueue (Value : Type) where
  first_ : Nat
  next_write_ : Nat
  capacity_ : Nat
  queue_ : Nat → Value

namespace SingleProducerSingleConsumerBoundedLockLessQueue

variable {Value : Type}

/-- `Init` as called by the value constructor: `queue_` is a freshly
allocated array of `capacity` default-initialized slots (contents
indeterminate, modelled by the parameter `init`), `first_ = 0`,
`next_write_ = 0`. -/
def Init (capacity : Nat) (init : Nat → Value) :
    SingleProducerSingleConsumerBoundedLockLessQueue Value :=
  ⟨0, 0, capacity, init⟩

/-- `Advance`: `++index; if (index < capacity_) return index; return 0;`. -/
def Advance (s : SingleProducerSingleConsumerBoundedLockLessQueue Value)
    (index : Nat) : Nat :=
  if index + 1 < s.capacity_ then index + 1 else 0

/-- `GetCapacity`: `capacity_ - 1`. -/
def GetCapacity (s : SingleProducerSingleConsumerBoundedLockLessQueue Value) : Nat :=
  s.capacity_ - 1

/-- `Push`. The C++ function is declared `bool` but its success path ends
without a `return` statement (undefined behaviour): we return `none` for
the produced value on that path, while still performing the two stores the
source performs (`queue_[next_write].store(value)` then
`next_write_.store(next_write_next)`). The full path explicitly returns
`false`, modelled as `some false`, with no store. -/
def Push (value : Value)
    (s : SingleProducerSingleConsumerBoundedLockLessQueue Value) :
    Option Bool × SingleProducerSingleConsumerBoundedLockLessQueue Value :=
  let first := s.first_
  let next_write := s.next_write_
  let next_write_next := s.Advance next_write
  if first = next_write_next then (some false, s)
  else
    (none,
      { s with
        queue_ := fun i => if i = next_write then value else s.queue_ i
        next_write_ := next_write_next })

/-- `Pop`. Returns the C++ return value, the value written through
`return_value` (`none` when the output location is not written), and the
state after the call. -/
def Pop (s : SingleProducerSingleConsumerBoundedLockLessQueue Value) :
    Bool × Option Value × SingleProducerSingleConsumerBoundedLockLessQueue Value :=
  let first := s.first_
  let next_write := s.next_write_
  if first = next_write then (false, none, s)
  else (true, some (s.queue_ first), { s with first_ := s.Advance first })

/-- `IsEmpty`: `first_ == next_write_`. -/
def IsEmpty (s : SingleProducerSingleConsumerBoundedLockLessQueue Value) : Bool :=
  s.first_ = s.next_write_

/-- `IsFull`: `first_ == Advance(next_write_)`. -/
def IsFull (s : SingleProducerSingleConsumerBoundedLockLessQueue Value) : Bool :=
  s.first_ = s.Advance s.next_write_

end SingleProducerSingleConsumerBoundedLockLessQueue

end lockless

namespace lockless

/-! ## MemoryPool

State of the pool (src/memory-pool.h). Slot addresses are `Nat`
identifiers handed out by a fresh-address counter `nextAddr`, which models
the process heap: every `new T[...]` chunk occupies a fresh, disjoint
address range, so two slots are the same C++ pointer exactly when they are
the same identifier. `memory_` is the free-list vector (list end =
`back()`); `chunks` records, in order, the start address and length of
every chunk appended to `memory_chunk_starting_locations_`. `reserve`
calls only influence the model through `capacity_increment_`, which the
constructor sets to the vector capacity obtained by reserving
`initial_capacity` on an empty vector, i.e. `initial_capacity` itself. -/

structure MemoryPool where
  memory_ : List Nat
  chunks : List (Nat × Nat)
  capacity_increment_ : Nat
  nextAddr : Nat
  deriving DecidableEq

namespace MemoryPool

/-- `AddCapacity`: allocate a chunk `t_array = new T[capacity_increment_]`
(a fresh address range) and `push_back` each of its slots onto `memory_`
in index order; record the chunk. -/
def AddCapacity (p : MemoryPool) : MemoryPool :=
  { p with
    memory_ := p.memory_ ++ (List.range p.capacity_increment_).map (fun i => p.nextAddr + i)
    chunks := p.chunks ++ [(p.nextAddr, p.capacity_increment_)]
    nextAddr := p.nextAddr + p.capacity_increment_ }

/-- The constructor `MemoryPool(initial_capacity)`: reserve, record the
resulting capacity as `capacity_increment_`, and `AddCapacity` once. -/
def Create (initial_capacity : Nat) : MemoryPool :=
  AddCapacity ⟨[], [], initial_capacity, 0⟩

/-- `Free(t)`: `memory_.push_back(t)`. -/
def Free (p : MemoryPool) (t : Nat) : MemoryPool :=
  { p with memory_ := p.memory_ ++ [t] }

/-- The tail of `Allocate()`: `T* free_location = memory_.back();
memory_.pop_back(); return free_location;`. Calling `back()` on an empty
vector is undefined behaviour in the source, modelled as `none`. -/
def AllocateTake (p : MemoryPool) : Option (Nat × MemoryPool) :=
  match p.memory_.getLast? with
  | none => none
  | some free_location => some (free_location, { p with memory_ := p.memory_.dropLast })

/-- `Allocate()`: if the free-list vector is empty, grow (`reserve` has no
further observable effect) via `AddCapacity`; then take the back of the
free-list. -/
def Allocate (p : MemoryPool) : Option (Nat × MemoryPool) :=
  AllocateTake (if p.memory_.length = 0 then p.AddCapacity else p)

/-- Total chunk memory held by the pool, in slots. -/
def totalChunkMem (p : MemoryPool) : Nat :=
  (p.chunks.map Prod.snd).sum

end MemoryPool

/-! ### Client-visible traces of the pool

The allocator claims quantify over sequences of interleaved
`Allocate`/`Free` calls in which every `Free` argument is a live pointer.
We model such a sequence as a list of operations executed against the pool
paired with the (ghost) list of currently-live pointers; a `free` of a
non-live pointer, or an `Allocate` that hits undefined behaviour, aborts
the run with `none`. -/

inductive PoolOp where
  | alloc : PoolOp
  | free : Nat → PoolOp
  deriving DecidableEq

def PoolStep (op : PoolOp) (s : MemoryPool × List Nat) :
    Option (MemoryPool × List Nat) :=
  match op with
  | .alloc =>
      match s.1.Allocate with
      | none => none
      | some (t, p2) => some (p2, t :: s.2)
  | .free t => if t ∈ s.2 then some (s.1.Free t, s.2.erase t) else none

def PoolExec : List PoolOp → MemoryPool × List Nat → Option (MemoryPool × List Nat)
  | [], s => some s
  | op :: ops, s =>
      match PoolStep op s with
      | none => none
      | some s2 => PoolExec ops s2

/-- Pool invariant: the live pointers and the free-list together contain
no duplicate address, and every such address was handed out by the
fresh-address counter. -/
def PoolInv (p : MemoryPool) (live : List Nat) : Prop :=
  (live ++ p.memory_).Nodup ∧ ∀ t ∈ live ++ p.memory_, t < p.nextAddr

/-! ### Client-visible traces of the bounded queue -/

inductive BoundedOp (Value : Type) where
  | push : Value → BoundedOp Value
  | pop : BoundedOp Value

namespace SingleProducerSingleConsumerBoundedLockLessQueue

variable {Value : Type}

def BoundedStep (op : BoundedOp Value)
    (s : SingleProducerSingleConsumerBoundedLockLessQueue Value) :
    SingleProducerSingleConsumerBoundedLockLessQueue Value :=
  match op with
  | .push v => (Push v s).2
  | .pop => (Pop s).2.2

def BoundedExec (ops : List (BoundedOp Value))
    (s : SingleProducerSingleConsumerBoundedLockLessQueue Value) :
    SingleProducerSingleConsumerBoundedLockLessQueue Value :=
  ops.foldl (fun s op => BoundedStep op s) s

/-- Push each value of `vs` in order. -/
def pushSeq (vs : List Value)
    (s : SingleProducerSingleConsumerBoundedLockLessQueue Value) :
    SingleProducerSingleConsumerBoundedLockLessQueue Value :=
  vs.foldl (fun s v => (Push v s).2) s

/-- Pop `n` times, recording each call's return value and written output. -/
def popTrace : Nat → SingleProducerSingleConsumerBoundedLockLessQueue Value →
    List (Bool × Option Value) × SingleProducerSingleConsumerBoundedLockLessQueue Value
  | 0, s => ([], s)
  | n + 1, s =>
      let r := Pop s
      let rest := popTrace n r.2.2
      ((r.1, r.2.1) :: rest.1, rest.2)

end SingleProducerSingleConsumerBoundedLockLessQueue

/-! ## SingleProducerSingleConsumerLockLessQueue

State of the unbounded queue
(src/single-producer-single-consumer-lockless-queue.h). Node pointers are
`Nat` heap addresses; the node store `heap` is a total function (addresses
not yet allocated hold a default-constructed `Node`, i.e. indeterminate
value and null `next`). The pool's `nextAddr` counter serves as the
process-wide fresh-address source, so addresses produced by `new` and
addresses inside pool chunks never coincide. -/

structure SingleProducerSingleConsumerLockLessQueue.Node (Value : Type) where
  value : Option Value
  next : Option Nat
  deriving DecidableEq

structure SingleProducerSingleConsumerLockLessQueue (Value : Type) where
  first_ : Nat
  divider_ : Nat
  last_ : Nat
  heap : Nat → SingleProducerSingleConsumerLockLessQueue.Node Value
  memory_pool_ : MemoryPool

namespace SingleProducerSingleConsumerLockLessQueue

variable {Value : Type}

/-- The constructor: build the pool with the given minimum initial
capacity, then `first_ = divider_ = last_ = memory_pool_.Allocate()`. The
allocated sentinel node is default-constructed (indeterminate value, null
`next`), as is all not-yet-written memory. `none` when `Allocate` hits
undefined behaviour (pool of capacity 0). -/
def Create (initial_capacity : Nat) :
    Option (SingleProducerSingleConsumerLockLessQueue Value) :=
  match (MemoryPool.Create initial_capacity).Allocate with
  | none => none
  | some (n, pool) =>
      some
        { first_ := n, divider_ := n, last_ := n
          heap := fun _ => ⟨none, none⟩
          memory_pool_ := pool }

/-- `FreeQueueUntil(until_node)`: while `first_ != until_node`, advance
`first_` to `first_->next` and return the passed node to the pool. The
loop is given explicit fuel (any bound on the chain length; callers pass
the fresh-address counter, which exceeds the number of nodes ever
created). Following a null `next` mid-chain is unreachable from
well-formed states and leaves the state as is. -/
def FreeQueueUntil (fuel : Nat) (until_node : Nat)
    (q : SingleProducerSingleConsumerLockLessQueue Value) :
    SingleProducerSingleConsumerLockLessQueue Value :=
  match fuel with
  | 0 => q
  | fuel + 1 =>
      if q.first_ ≠ until_node then
        let current := q.first_
        match (q.heap current).next with
        | some nxt =>
            FreeQueueUntil fuel until_node
              { q with first_ := nxt, memory_pool_ := q.memory_pool_.Free current }
        | none => q
      else q

/-- `Push(value)`: `last->next = new Node(value)` — the node comes from
the global `new` operator (a fresh heap address, bumping the fresh-address
counter) and NOT from `memory_pool_`; then `last_.store(last->next)`;
then `FreeQueueUntil(divider_.load())`. -/
def Push (value : Value) (q : SingleProducerSingleConsumerLockLessQueue Value) :
    SingleProducerSingleConsumerLockLessQueue Value :=
  let last := q.last_
  let n := q.memory_pool_.nextAddr
  let q1 : SingleProducerSingleConsumerLockLessQueue Value :=
    { q with
      heap := fun a =>
        if a = n then ⟨some value, none⟩
        else if a = last then ⟨(q.heap last).value, some n⟩
        else q.heap a
      memory_pool_ := { q.memory_pool_ with nextAddr := n + 1 }
      last_ := n }
  FreeQueueUntil q1.memory_pool_.nextAddr q1.divider_ q1

/-- `Pop`: if `divider_ != last_`, write `divider->next->value` to the
output location, publish `divider_ = divider->next` and return true; else
return false without touching the output. The result is the C++ return
value, the written output (`none` = output location untouched; the inner
`Option Value` is the node's possibly-indeterminate payload) and the new
state. Dereferencing a null `divider->next` (unreachable from well-formed
states) is undefined behaviour, modelled as the outer `none`. -/
def Pop (q : SingleProducerSingleConsumerLockLessQueue Value) :
    Option (Bool × Option (Option Value) × SingleProducerSingleConsumerLockLessQueue Value) :=
  let div := q.divider_
  if div ≠ q.last_ then
    match (q.heap div).next with
    | some nxt => some (true, some ((q.heap nxt).value), { q with divider_ := nxt })
    | none => none
  else some (false, none, q)

/-- `IsEmpty` exactly as the source writes it:
`divider_.load() != last_.load()`. -/
def IsEmpty (q : SingleProducerSingleConsumerLockLessQueue Value) : Bool :=
  q.divider_ ≠ q.last_

end SingleProducerSingleConsumerLockLessQueue

end lockless

namespace lockless

open SingleProducerSingleConsumerBoundedLockLessQueue

/-- **C1** (code_bug evidence). On a freshly constructed capacity-16 queue
(which is not full), `Push 7` performs the store into slot 0 and publishes
the advanced cursor `next_write_ = 1`, but produces no return value at all:
the success path of the C++ `Push` falls off the end of a `bool` function
(undefined behaviour) instead of returning `true` as the claim (and the
repository's own test `EXPECT_TRUE(queue_.Push(i))`) requires. The
full-queue path does return `false`. -/
theorem C1_push_success_path_returns_nothing :
    (Push 7 (Init 16 (fun _ => (0 : Nat)))).1 = none ∧
    (Push 7 (Init 16 (fun _ => (0 : Nat)))).2.queue_ 0 = 7 ∧
    (Push 7 (Init 16 (fun _ => (0 : Nat)))).2.next_write_ = 1 ∧
    (Push 7 (Init 16 (fun _ => (0 : Nat)))).2.first_ = 0 ∧
    Push 5 (Init 1 (fun _ => (0 : Nat))) = (some false, Init 1 (fun _ => (0 : Nat))) := by
  refine ⟨rfl, rfl, rfl, rfl, rfl⟩

/-- **C2** (code_bug evidence). On a freshly constructed unbounded queue
(default pool capacity 16) the divider and last pointers coincide — the
queue holds no unconsumed value — yet `IsEmpty` returns `false`; after one
`Push` (one unconsumed value) `IsEmpty` returns `true`. The source's
`IsEmpty` compares with `!=`, inverting the emptiness predicate its own
doc comment and the test `EXPECT_TRUE(queue_.IsEmpty())` describe. -/
theorem C2_unbounded_IsEmpty_is_inverted :
    ((SingleProducerSingleConsumerLockLessQueue.Create 16 :
        Option (SingleProducerSingleConsumerLockLessQueue Nat)).map fun q =>
      (decide (q.divider_ = q.last_), q.IsEmpty,
        (SingleProducerSingleConsumerLockLessQueue.Push 3 q).IsEmpty))
    = some (true, false, true) := by
  rfl

/-- **C3** (code_bug evidence). Starting from a freshly constructed
unbounded queue (pool free-list `[0..14]`, fresh-address counter 16):
`Push 5` creates its node at the fresh heap address 16 via global `new`,
an address not present in the pool's free-list, and leaves the non-empty
free-list untouched — the node is NOT obtained from the pool, contradicting
the claim and the header's own documentation. The reclamation half of the
claim does hold: after popping the value 5 and pushing again, the producer
frees the fully-consumed sentinel (address 15) back into the pool and
advances `first_` until it equals the observed divider. -/
theorem C3_push_allocates_with_new_not_pool :
    ((SingleProducerSingleConsumerLockLessQueue.Create 16 :
        Option (SingleProducerSingleConsumerLockLessQueue Nat)).bind fun q0 =>
      let q1 := SingleProducerSingleConsumerLockLessQueue.Push 5 q0
      (SingleProducerSingleConsumerLockLessQueue.Pop q1).map fun r =>
        let q3 := SingleProducerSingleConsumerLockLessQueue.Push 7 r.2.2
        (q1.last_,
          decide (q1.last_ ∈ q0.memory_pool_.memory_),
          decide (q1.memory_pool_.memory_ = q0.memory_pool_.memory_),
          q0.memory_pool_.memory_.length,
          r.1, r.2.1,
          decide (q3.first_ = q3.divider_),
          decide (q3.memory_pool_.memory_ = q0.memory_pool_.memory_ ++ [15])))
    = some (16, false, true, 15, true, some (some 5), true, true) := by
  rfl

/-- **C6**: popping a newly constructed queue of either flavour returns
`false`, leaves the queue state unchanged, and never writes through the
caller's output pointer (the `none` in the middle component), for every
capacity and every initial buffer content. -/
theorem C6_pop_on_fresh_queue_fails_cleanly :
    (∀ (V : Type) (c : Nat) (init : Nat → V),
      Pop (Init c init) = (false, none, Init c init)) ∧
    (∀ (V : Type) (c : Nat) (q : SingleProducerSingleConsumerLockLessQueue V),
      SingleProducerSingleConsumerLockLessQueue.Create c = some q →
        q.Pop = some (false, none, q)) := by
  constructor
  · intro V c init
    rfl
  · intro V c q h
    unfold SingleProducerSingleConsumerLockLessQueue.Create at h
    cases hA : (MemoryPool.Create c).Allocate with
    | none => rw [hA] at h; cases h
    | some np =>
        rw [hA] at h
        cases np with
        | mk n pool =>
            cases h
            simp [SingleProducerSingleConsumerLockLessQueue.Pop]

/-- Witness for C6: the unbounded half applied at the concrete default
capacity 16, where construction succeeds. -/
theorem C6_pop_on_fresh_queue_fails_cleanly_witness :
    (SingleProducerSingleConsumerLockLessQueue.Create 16 :
        Option (SingleProducerSingleConsumerLockLessQueue Nat)).bind
      SingleProducerSingleConsumerLockLessQueue.Pop
    = (SingleProducerSingleConsumerLockLessQueue.Create 16 :
        Option (SingleProducerSingleConsumerLockLessQueue Nat)).map
        (fun q => (false, none, q)) := by
  cases hq : (SingleProducerSingleConsumerLockLessQueue.Create 16 :
      Option (SingleProducerSingleConsumerLockLessQueue Nat)) with
  | none => rfl
  | some q =>
      simpa using C6_pop_on_fresh_queue_fails_cleanly.2 Nat 16 q hq

/-! ### Allocator lemmas shared by the pool claims -/

namespace MemoryPool

/-- Unfolding `Allocate` on a successful call: with `paug` the pool after
the conditional growth step, the returned slot is the back of `paug`'s
free-list and the free-list shrinks by exactly that slot; nothing else
changes relative to `paug`. -/
theorem allocate_sound (p : MemoryPool) (t : Nat) (p2 : MemoryPool)
    (h : p.Allocate = some (t, p2)) :
    p2.memory_ ++ [t] = (if p.memory_.length = 0 then p.AddCapacity else p).memory_ ∧
    p2.chunks = (if p.memory_.length = 0 then p.AddCapacity else p).chunks ∧
    p2.capacity_increment_ =
      (if p.memory_.length = 0 then p.AddCapacity else p).capacity_increment_ ∧
    p2.nextAddr = (if p.memory_.length = 0 then p.AddCapacity else p).nextAddr := by
  unfold Allocate AllocateTake at h
  set paug := if p.memory_.length = 0 then p.AddCapacity else p with hpaug
  cases hL : paug.memory_.getLast? with
  | none => rw [hL] at h; cases h
  | some fl =>
      rw [hL] at h
      have h1 : fl = t ∧
          ({ paug with memory_ := paug.memory_.dropLast } : MemoryPool) = p2 := by
        constructor
        · exact congrArg Prod.fst (Option.some.inj h)
        · exact congrArg Prod.snd (Option.some.inj h)
      obtain ⟨rfl, rfl⟩ := h1
      refine ⟨?_, rfl, rfl, rfl⟩
      exact List.dropLast_append_getLast? fl hL

/-- A successful `Allocate` with a non-empty free-list takes the back slot
and grows nothing. -/
theorem allocate_of_ne_nil (p : MemoryPool) (h : p.memory_ ≠ []) :
    ∃ t p2, p.Allocate = some (t, p2) ∧ p2.memory_ ++ [t] = p.memory_ ∧
      p2.chunks = p.chunks ∧ p2.capacity_increment_ = p.capacity_increment_ ∧
      p2.nextAddr = p.nextAddr := by
  rcases List.eq_nil_or_concat p.memory_ with h0 | ⟨L, b, hLb⟩
  · exact absurd h0 h
  · rw [List.concat_eq_append] at hLb
    have hlen : ¬ p.memory_.length = 0 := by simp [hLb]
    refine ⟨b, { p with memory_ := p.memory_.dropLast }, ?_, ?_, rfl, rfl, rfl⟩
    · unfold Allocate AllocateTake
      rw [if_neg hlen, hLb]
      simp [List.getLast?_concat]
    · rw [hLb, List.dropLast_concat]

/-- A successful `Allocate` with an empty free-list and a positive
configured increment: one chunk of exactly the increment size is
materialized, all of its slots are pushed onto the free-list, and the back
slot is then popped and returned. -/
theorem allocate_of_nil (p : MemoryPool) (h : p.memory_ = [])
    (hinc : 1 ≤ p.capacity_increment_) :
    ∃ t p2, p.Allocate = some (t, p2) ∧
      p2.chunks = p.chunks ++ [(p.nextAddr, p.capacity_increment_)] ∧
      p2.memory_ ++ [t] =
        (List.range p.capacity_increment_).map (fun i => p.nextAddr + i) ∧
      p2.capacity_increment_ = p.capacity_increment_ ∧
      p2.nextAddr = p.nextAddr + p.capacity_increment_ := by
  have hlen : p.memory_.length = 0 := by simp [h]
  have hslots : (p.AddCapacity).memory_ =
      (List.range p.capacity_increment_).map (fun i => p.nextAddr + i) := by
    simp [AddCapacity, h]
  have hne : (p.AddCapacity).memory_ ≠ [] := by
    rw [hslots]
    intro hcontra
    have := congrArg List.length hcontra
    simp at this
    omega
  rcases List.eq_nil_or_concat (p.AddCapacity).memory_ with h0 | ⟨L, b, hLb⟩
  · exact absurd h0 hne
  · rw [List.concat_eq_append] at hLb
    refine ⟨b, { p.AddCapacity with memory_ := (p.AddCapacity).memory_.dropLast },
      ?_, ?_, ?_, rfl, rfl⟩
    · unfold Allocate AllocateTake
      rw [if_pos hlen, hLb]
      simp [List.getLast?_concat]
    · simp [AddCapacity]
    · show (p.AddCapacity).memory_.dropLast ++ [b] = _
      rw [hLb, List.dropLast_concat, ← hLb, hslots]

end MemoryPool

/-- **C7 counterexample**: `Allocate` does fail on the pool constructed
with initial capacity 0 (the configured increment is then 0, so the growth
step materializes an empty chunk and `back()` is called on an empty
vector — undefined behaviour, modelled as `none`). -/
theorem C7_allocate_fails_on_zero_increment :
    (MemoryPool.Create 0).Allocate = none := by
  rfl

/-- **C7 (amended)**: for any pool whose configured increment is positive,
`Allocate` never fails; exactly when the free-list is empty at call time
it first materializes one new chunk of exactly the configured increment
size and pushes all of its slots onto the free-list, and it then pops and
returns the back slot of the free-list. -/
theorem C7_allocate_grows_exactly_when_empty (p : MemoryPool)
    (hinc : 1 ≤ p.capacity_increment_) :
    ∃ t p2, p.Allocate = some (t, p2) ∧
      (p.memory_ = [] →
        p2.chunks = p.chunks ++ [(p.nextAddr, p.capacity_increment_)] ∧
        p2.memory_ ++ [t] =
          (List.range p.capacity_increment_).map (fun i => p.nextAddr + i)) ∧
      (p.memory_ ≠ [] →
        p2.chunks = p.chunks ∧ p2.memory_ ++ [t] = p.memory_) := by
  by_cases hm : p.memory_ = []
  · obtain ⟨t, p2, hA, hc, hmem, _, _⟩ := MemoryPool.allocate_of_nil p hm hinc
    exact ⟨t, p2, hA, fun _ => ⟨hc, hmem⟩, fun hne => absurd hm hne⟩
  · obtain ⟨t, p2, hA, hmem, hc, _, _⟩ := MemoryPool.allocate_of_ne_nil p hm
    exact ⟨t, p2, hA, fun he => absurd he hm, fun _ => ⟨hc, hmem⟩⟩

/-- Witness for C7: the amended statement applied to the concrete pool of
initial capacity 1. -/
theorem C7_allocate_grows_exactly_when_empty_witness :
    ∃ t p2, (MemoryPool.Create 1).Allocate = some (t, p2) ∧
      ((MemoryPool.Create 1).memory_ = [] →
        p2.chunks = (MemoryPool.Create 1).chunks ++
          [((MemoryPool.Create 1).nextAddr, (MemoryPool.Create 1).capacity_increment_)] ∧
        p2.memory_ ++ [t] =
          (List.range (MemoryPool.Create 1).capacity_increment_).map
            (fun i => (MemoryPool.Create 1).nextAddr + i)) ∧
      ((MemoryPool.Create 1).memory_ ≠ [] →
        p2.chunks = (MemoryPool.Create 1).chunks ∧
        p2.memory_ ++ [t] = (MemoryPool.Create 1).memory_) :=
  C7_allocate_grows_exactly_when_empty (MemoryPool.Create 1) (by decide)

/-! ### Pool trace invariants (C8) -/

/-- A freshly constructed pool satisfies the pool invariant with no live
pointers. -/
theorem poolInv_create (c : Nat) : PoolInv (MemoryPool.Create c) [] := by
  constructor
  · simp [MemoryPool.Create, MemoryPool.AddCapacity, List.nodup_range]
  · intro t ht
    simp [MemoryPool.Create, MemoryPool.AddCapacity] at ht ⊢
    omega

/-- `AddCapacity` preserves the pool invariant: the appended slots are
fresh, hence distinct from everything live or free. -/
theorem poolInv_addCapacity {p : MemoryPool} {live : List Nat}
    (h : PoolInv p live) : PoolInv p.AddCapacity live := by
  obtain ⟨hnd, hlt⟩ := h
  have hfresh :
      ((List.range p.capacity_increment_).map (fun i => p.nextAddr + i)).Nodup := by
    refine List.Nodup.map ?_ (List.nodup_range p.capacity_increment_)
    intro a b hab
    have hab2 : p.nextAddr + a = p.nextAddr + b := hab
    omega
  constructor
  · rw [show live ++ p.AddCapacity.memory_
        = (live ++ p.memory_) ++
            (List.range p.capacity_increment_).map (fun i => p.nextAddr + i) by
      simp [MemoryPool.AddCapacity]]
    refine List.Nodup.append hnd hfresh ?_
    intro a ha hb
    have h1 := hlt a ha
    simp at hb
    obtain ⟨i, hi, rfl⟩ := hb
    omega
  · intro t ht
    simp [MemoryPool.AddCapacity] at ht
    rcases ht with ht | ht | ⟨i, hi, rfl⟩
    · have := hlt t (List.mem_append_left _ ht)
      simp [MemoryPool.AddCapacity]
      omega
    · have := hlt t (List.mem_append_right _ ht)
      simp [MemoryPool.AddCapacity]
      omega
    · simp [MemoryPool.AddCapacity]
      omega

/-- One pool operation preserves the pool invariant. -/
theorem poolInv_step (op : PoolOp) (s s2 : MemoryPool × List Nat)
    (h : PoolStep op s = some s2) (hinv : PoolInv s.1 s.2) : PoolInv s2.1 s2.2 := by
  obtain ⟨p, live⟩ := s
  cases op with
  | alloc =>
      simp only [PoolStep] at h
      cases hA : p.Allocate with
      | none => rw [hA] at h; cases h
      | some tp =>
          obtain ⟨t, pa⟩ := tp
          rw [hA] at h
          obtain rfl : s2 = (pa, t :: live) := (Option.some.inj h).symm
          have hpaug : PoolInv (if p.memory_.length = 0 then p.AddCapacity else p) live := by
            split
            · exact poolInv_addCapacity hinv
            · exact hinv
          obtain ⟨hmem, _, _, hna⟩ := MemoryPool.allocate_sound p t pa hA
          obtain ⟨hnd, hlt⟩ := hpaug
          constructor
          · have hperm :
                (live ++ pa.memory_ ++ [t]).Perm (t :: (live ++ pa.memory_)) :=
              List.perm_append_singleton t (live ++ pa.memory_)
            have hnd2 : (live ++ pa.memory_ ++ [t]).Nodup := by
              rw [List.append_assoc, hmem]
              exact hnd
            exact hperm.nodup hnd2
          · intro x hx
            show x < pa.nextAddr
            rw [hna]
            rcases (by simpa using hx : x = t ∨ x ∈ live ∨ x ∈ pa.memory_) with
              hx1 | hl | hm
            · subst hx1
              exact hlt x (List.mem_append_right live (by rw [← hmem]; simp))
            · exact hlt x (List.mem_append_left _ hl)
            · exact hlt x (List.mem_append_right live
                (by rw [← hmem]; exact List.mem_append_left _ hm))
  | free t =>
      simp only [PoolStep] at h
      by_cases ht : t ∈ live
      · rw [if_pos ht] at h
        obtain rfl : s2 = (p.Free t, live.erase t) := (Option.some.inj h).symm
        obtain ⟨hnd, hlt⟩ := hinv
        constructor
        · have hperm1 : (live ++ p.memory_).Perm (t :: (live.erase t ++ p.memory_)) :=
            (List.perm_cons_erase ht).append_right p.memory_
          have hperm2 :
              (live.erase t ++ p.memory_ ++ [t]).Perm (t :: (live.erase t ++ p.memory_)) :=
            List.perm_append_singleton t _
          have hmid : (t :: (live.erase t ++ p.memory_)).Nodup := hperm1.nodup hnd
          have hgoal : (live.erase t ++ p.memory_ ++ [t]).Nodup := hperm2.symm.nodup hmid
          show (live.erase t ++ (p.memory_ ++ [t])).Nodup
          rw [← List.append_assoc]
          exact hgoal
        · intro x hx
          show x < p.nextAddr
          rcases List.mem_append.mp hx with hl | hm
          · exact hlt x (List.mem_append_left _ (List.mem_of_mem_erase hl))
          · rcases List.mem_append.mp hm with hm1 | hm2
            · exact hlt x (List.mem_append_right _ hm1)
            · have hxt : x = t := by simpa using hm2
              subst hxt
              exact hlt x (List.mem_append_left _ ht)
      · rw [if_neg ht] at h
        cases h

/-- Executing a trace of pool operations preserves the pool invariant. -/
theorem poolInv_exec (ops : List PoolOp) :
    ∀ s s2, PoolExec ops s = some s2 → PoolInv s.1 s.2 → PoolInv s2.1 s2.2 := by
  induction ops with
  | nil =>
      intro s s2 h hinv
      obtain rfl := Option.some.inj h
      exact hinv
  | cons op ops ih =>
      intro s s2 h hinv
      simp only [PoolExec] at h
      cases hS : PoolStep op s with
      | none => rw [hS] at h; cases h
      | some s1 =>
          rw [hS] at h
          exact ih s1 s2 h (poolInv_step op s s1 hS hinv)

/-- One pool operation never shrinks the total chunk memory, and changes
it only on an `alloc` that found the free-list empty. -/
theorem poolStep_chunkMem (op : PoolOp) (s s2 : MemoryPool × List Nat)
    (h : PoolStep op s = some s2) :
    s.1.totalChunkMem ≤ s2.1.totalChunkMem ∧
      (s2.1.totalChunkMem ≠ s.1.totalChunkMem →
        op = PoolOp.alloc ∧ s.1.memory_ = []) := by
  obtain ⟨p, live⟩ := s
  cases op with
  | alloc =>
      simp only [PoolStep] at h
      cases hA : p.Allocate with
      | none => rw [hA] at h; cases h
      | some tp =>
          obtain ⟨t, pa⟩ := tp
          rw [hA] at h
          obtain rfl : s2 = (pa, t :: live) := (Option.some.inj h).symm
          obtain ⟨_, hch, _, _⟩ := MemoryPool.allocate_sound p t pa hA
          by_cases hm : p.memory_.length = 0
          · rw [if_pos hm] at hch
            have hsum : pa.totalChunkMem = p.totalChunkMem + p.capacity_increment_ := by
              simp [MemoryPool.totalChunkMem, hch, MemoryPool.AddCapacity]
            refine ⟨?_, fun _ => ⟨rfl, List.length_eq_zero.mp hm⟩⟩
            show p.totalChunkMem ≤ pa.totalChunkMem
            omega
          · rw [if_neg hm] at hch
            have hsum : pa.totalChunkMem = p.totalChunkMem := by
              simp [MemoryPool.totalChunkMem, hch]
            exact ⟨le_of_eq hsum.symm, fun hne => absurd hsum hne⟩
  | free t =>
      simp only [PoolStep] at h
      by_cases ht : t ∈ live
      · rw [if_pos ht] at h
        obtain rfl : s2 = (p.Free t, live.erase t) := (Option.some.inj h).symm
        exact ⟨le_refl _, fun hne => absurd rfl hne⟩
      · rw [if_neg ht] at h
        cases h

/-- Along a successfully executed trace the total chunk memory is
monotone. -/
theorem poolExec_chunkMem (ops : List PoolOp) :
    ∀ s s2, PoolExec ops s = some s2 →
      s.1.totalChunkMem ≤ s2.1.totalChunkMem := by
  induction ops with
  | nil =>
      intro s s2 h
      obtain rfl := Option.some.inj h
      exact le_refl _
  | cons op ops ih =>
      intro s s2 h
      simp only [PoolExec] at h
      cases hS : PoolStep op s with
      | none => rw [hS] at h; cases h
      | some s1 =>
          rw [hS] at h
          exact le_trans (poolStep_chunkMem op s s1 hS).1 (ih s1 s2 h)

/-- **C8**: along every trace of interleaved `Allocate`/`Free` calls on a
pool in which every `Free` argument is a currently-live pointer, the live
pointers are pairwise distinct, the total chunk memory never shrinks, and
any single step changes the chunk memory only when it is an `Allocate`
that found the free-list empty. -/
theorem C8_pool_live_distinct_chunk_monotone (c : Nat) (ops : List PoolOp)
    (p : MemoryPool) (live : List Nat)
    (h : PoolExec ops (MemoryPool.Create c, []) = some (p, live)) :
    live.Nodup ∧
    (MemoryPool.Create c).totalChunkMem ≤ p.totalChunkMem ∧
    ∀ op s s2, PoolStep op s = some s2 →
      s.1.totalChunkMem ≤ s2.1.totalChunkMem ∧
      (s2.1.totalChunkMem ≠ s.1.totalChunkMem →
        op = PoolOp.alloc ∧ s.1.memory_ = []) := by
  have hinv := poolInv_exec ops (MemoryPool.Create c, []) (p, live) h (poolInv_create c)
  exact ⟨hinv.1.of_append_left, poolExec_chunkMem ops _ _ h,
    fun op s s2 hs => poolStep_chunkMem op s s2 hs⟩

/-- Witness for C8: the trace alloc, free, alloc on the pool of initial
capacity 1, whose final state is the empty free-list with live pointer 0. -/
theorem C8_pool_live_distinct_chunk_monotone_witness :
    ([0] : List Nat).Nodup ∧
    (MemoryPool.Create 1).totalChunkMem ≤
      (MemoryPool.mk [] [(0, 1)] 1 1).totalChunkMem ∧
    ∀ op s s2, PoolStep op s = some s2 →
      s.1.totalChunkMem ≤ s2.1.totalChunkMem ∧
      (s2.1.totalChunkMem ≠ s.1.totalChunkMem →
        op = PoolOp.alloc ∧ s.1.memory_ = []) :=
  C8_pool_live_distinct_chunk_monotone 1
    [PoolOp.alloc, PoolOp.free 0, PoolOp.alloc]
    (MemoryPool.mk [] [(0, 1)] 1 1) [0] (by decide)

/-! ### Bounded queue lemmas shared by C4, C5 and C10 -/

namespace SingleProducerSingleConsumerBoundedLockLessQueue

variable {Value : Type}

theorem Advance_eq (s : SingleProducerSingleConsumerBoundedLockLessQueue Value)
    (i : Nat) : s.Advance i = if i + 1 < s.capacity_ then i + 1 else 0 := rfl

theorem Push_eq (value : Value)
    (s : SingleProducerSingleConsumerBoundedLockLessQueue Value) :
    Push value s =
      if s.first_ = s.Advance s.next_write_ then (some false, s)
      else
        (none,
          { s with
            queue_ := fun i => if i = s.next_write_ then value else s.queue_ i
            next_write_ := s.Advance s.next_write_ }) := rfl

theorem Pop_eq (s : SingleProducerSingleConsumerBoundedLockLessQueue Value) :
    Pop s =
      if s.first_ = s.next_write_ then (false, none, s)
      else (true, some (s.queue_ s.first_), { s with first_ := s.Advance s.first_ }) := rfl

/-- Effect of pushing a list of values, one `Push` per element, on a state
whose read cursor sits at 0 and which has room for all of them: the write
cursor advances by the number of values without wrapping, the pushed
values sit at consecutive slots starting at the old write cursor, and all
other slots keep their contents. -/
theorem pushSeq_spec (d : Value) (vs : List Value) :
    ∀ s : SingleProducerSingleConsumerBoundedLockLessQueue Value,
      s.first_ = 0 → s.next_write_ + vs.length + 1 ≤ s.capacity_ →
      (pushSeq vs s).first_ = 0 ∧
      (pushSeq vs s).next_write_ = s.next_write_ + vs.length ∧
      (pushSeq vs s).capacity_ = s.capacity_ ∧
      (∀ j, j < s.next_write_ ∨ s.next_write_ + vs.length ≤ j →
        (pushSeq vs s).queue_ j = s.queue_ j) ∧
      (∀ j, j < vs.length →
        (pushSeq vs s).queue_ (s.next_write_ + j) = vs.getD j d) := by
  induction vs with
  | nil =>
      intro s h0 hcap
      exact ⟨h0, rfl, rfl, fun j _ => rfl, fun j hj => absurd hj (by simp)⟩
  | cons v vs ih =>
      intro s h0 hcap
      have hlencons : (v :: vs).length = vs.length + 1 := rfl
      have hlt : s.next_write_ + 1 < s.capacity_ := by
        rw [hlencons] at hcap; omega
      have hAdv : s.Advance s.next_write_ = s.next_write_ + 1 := by
        rw [Advance_eq, if_pos hlt]
      have hne : ¬ s.first_ = s.Advance s.next_write_ := by
        rw [hAdv, h0]; omega
      have hpush : (Push v s).2 =
          { s with
            queue_ := fun i => if i = s.next_write_ then v else s.queue_ i
            next_write_ := s.next_write_ + 1 } := by
        rw [Push_eq, if_neg hne, hAdv]
      have hstep : pushSeq (v :: vs) s = pushSeq vs (Push v s).2 := rfl
      rw [hstep, hpush]
      obtain ⟨ih1, ih2, ih3, ih4, ih5⟩ :=
        ih { s with
              queue_ := fun i => if i = s.next_write_ then v else s.queue_ i
              next_write_ := s.next_write_ + 1 }
          h0 (by simp only; rw [hlencons] at hcap; omega)
      refine ⟨ih1, ?_, ih3, ?_, ?_⟩
      · rw [ih2]; simp only [hlencons]; omega
      · intro j hj
        have hj2 : j < s.next_write_ + 1 ∨ s.next_write_ + 1 + vs.length ≤ j := by
          rw [hlencons] at hj; omega
        rw [ih4 j hj2]
        have hjne : ¬ j = s.next_write_ := by
          rcases hj with hj | hj
          · omega
          · rw [hlencons] at hj; omega
        simp only [hjne, if_false]
      · intro j hj
        match j with
        | 0 =>
            have hmem : s.next_write_ < s.next_write_ + 1 ∨
                s.next_write_ + 1 + vs.length ≤ s.next_write_ := by omega
            have := ih4 s.next_write_ hmem
            simp only at this
            rw [show s.next_write_ + 0 = s.next_write_ from rfl, this]
            simp [List.getD_cons_zero]
        | j + 1 =>
            have hj3 : j < vs.length := by rw [hlencons] at hj; omega
            have := ih5 j hj3
            simp only at this
            rw [(by omega : s.next_write_ + (j + 1) = s.next_write_ + 1 + j), this]
            simp [List.getD_cons_succ]

/-- Effect of popping once per element of `ws` from a state whose pending
segment holds exactly the values of `ws` in consecutive slots: every pop
returns true and writes the next value of `ws`, and the read cursor
advances past the segment without wrapping. -/
theorem popTrace_spec (d : Value) (ws : List Value) :
    ∀ s : SingleProducerSingleConsumerBoundedLockLessQueue Value,
      s.first_ + ws.length ≤ s.next_write_ → s.next_write_ + 1 ≤ s.capacity_ →
      (∀ j, j < ws.length → s.queue_ (s.first_ + j) = ws.getD j d) →
      (popTrace ws.length s).1 = ws.map (fun v => (true, some v)) ∧
      (popTrace ws.length s).2 =
        { s with first_ := s.first_ + ws.length } := by
  induction ws with
  | nil =>
      intro s hle hcap hq
      constructor
      · rfl
      · show s = { s with first_ := s.first_ + 0 }
        rfl
  | cons w ws ih =>
      intro s hle hcap hq
      have hlencons : (w :: ws).length = ws.length + 1 := rfl
      rw [hlencons] at hle
      have hne : ¬ s.first_ = s.next_write_ := by omega
      have hAdv : s.Advance s.first_ = s.first_ + 1 := by
        rw [Advance_eq, if_pos (by omega)]
      have hpop : Pop s =
          (true, some (s.queue_ s.first_), { s with first_ := s.first_ + 1 }) := by
        rw [Pop_eq, if_neg hne, hAdv]
      have hval : s.queue_ s.first_ = w := by
        have := hq 0 (by rw [hlencons]; omega)
        simpa using this
      have hstep : popTrace (w :: ws).length s =
          (((Pop s).1, (Pop s).2.1) ::
              (popTrace ws.length (Pop s).2.2).1,
            (popTrace ws.length (Pop s).2.2).2) := rfl
      obtain ⟨ih1, ih2⟩ := ih { s with first_ := s.first_ + 1 }
        (by simp only; omega) hcap
        (by
          intro j hj
          have := hq (j + 1) (by rw [hlencons]; omega)
          simp only
          rw [(by omega : s.first_ + 1 + j = s.first_ + (j + 1)), this]
          simp [List.getD_cons_succ])
      constructor
      · rw [hstep, hpop]
        simp only
        rw [ih1, hval]
        rfl
      · rw [hstep, hpop]
        simp only
        rw [ih2]
        simp only
        rw [(by omega : s.first_ + 1 + ws.length = s.first_ + (w :: ws).length)]

theorem Advance_lt (s : SingleProducerSingleConsumerBoundedLockLessQueue Value)
    (hc : 1 ≤ s.capacity_) (i : Nat) : s.Advance i < s.capacity_ := by
  rw [Advance_eq]
  split
  · assumption
  · omega

theorem boundedStep_cursors (op : BoundedOp Value)
    (s : SingleProducerSingleConsumerBoundedLockLessQueue Value)
    (hc : 1 ≤ s.capacity_) (h1 : s.first_ < s.capacity_)
    (h2 : s.next_write_ < s.capacity_) :
    (BoundedStep op s).capacity_ = s.capacity_ ∧
    (BoundedStep op s).first_ < s.capacity_ ∧
    (BoundedStep op s).next_write_ < s.capacity_ := by
  cases op with
  | push v =>
      show (Push v s).2.capacity_ = s.capacity_ ∧
        (Push v s).2.first_ < s.capacity_ ∧ (Push v s).2.next_write_ < s.capacity_
      rw [Push_eq]
      split
      · exact ⟨rfl, h1, h2⟩
      · exact ⟨rfl, h1, Advance_lt s hc s.next_write_⟩
  | pop =>
      show (Pop s).2.2.capacity_ = s.capacity_ ∧
        (Pop s).2.2.first_ < s.capacity_ ∧ (Pop s).2.2.next_write_ < s.capacity_
      rw [Pop_eq]
      split
      · exact ⟨rfl, h1, h2⟩
      · exact ⟨rfl, Advance_lt s hc s.first_, h2⟩

theorem boundedExec_cursors (ops : List (BoundedOp Value)) :
    ∀ s : SingleProducerSingleConsumerBoundedLockLessQueue Value,
      1 ≤ s.capacity_ → s.first_ < s.capacity_ → s.next_write_ < s.capacity_ →
      (BoundedExec ops s).capacity_ = s.capacity_ ∧
      (BoundedExec ops s).first_ < s.capacity_ ∧
      (BoundedExec ops s).next_write_ < s.capacity_ := by
  induction ops with
  | nil => intro s hc h1 h2; exact ⟨rfl, h1, h2⟩
  | cons op ops ih =>
      intro s hc h1 h2
      obtain ⟨hcEq, hf, hn⟩ := boundedStep_cursors op s hc h1 h2
      obtain ⟨hcEq2, hf2, hn2⟩ :=
        ih (BoundedStep op s) (by omega) (by omega) (by omega)
      have hrfl : BoundedExec (op :: ops) s = BoundedExec ops (BoundedStep op s) := rfl
      rw [hrfl]
      exact ⟨hcEq2.trans hcEq, by omega, by omega⟩

end SingleProducerSingleConsumerBoundedLockLessQueue

open SingleProducerSingleConsumerBoundedLockLessQueue in
/-- **C4**: pushing any sequence `vs` of at most `capacity − 1` values in
order onto a freshly constructed bounded queue and then popping once per
value makes every pop return true and yields exactly `vs`, in order. -/
theorem C4_bounded_queue_fifo (Value : Type) (d : Value) (c : Nat)
    (init : Nat → Value) (vs : List Value) (hlen : vs.length + 1 ≤ c) :
    (popTrace vs.length (pushSeq vs (Init c init))).1
      = vs.map (fun v => (true, some v)) := by
  obtain ⟨h1, h2, h3, h4, h5⟩ :=
    pushSeq_spec d vs (Init c init) rfl (by show 0 + vs.length + 1 ≤ c; omega)
  refine (popTrace_spec d vs (pushSeq vs (Init c init)) ?_ ?_ ?_).1
  · rw [h1, h2]
    show 0 + vs.length ≤ 0 + vs.length
    omega
  · rw [h2, h3]
    show 0 + vs.length + 1 ≤ c
    omega
  · intro j hj
    rw [h1]
    exact h5 j hj

open SingleProducerSingleConsumerBoundedLockLessQueue in
/-- Witness for C4: three values through a capacity-5 queue. -/
theorem C4_bounded_queue_fifo_witness :
    ([10, 20, 30] : List Nat).length + 1 ≤ 5 ∧
    (popTrace ([10, 20, 30] : List Nat).length
        (pushSeq [10, 20, 30] (Init 5 (fun _ => (0 : Nat))))).1
      = ([10, 20, 30] : List Nat).map (fun v => (true, some v)) :=
  ⟨by decide, C4_bounded_queue_fifo Nat 0 5 (fun _ => 0) [10, 20, 30] (by decide)⟩

open SingleProducerSingleConsumerBoundedLockLessQueue in
/-- **C5**: after exactly `capacity − 1` accepted pushes on a fresh
bounded queue with no pops, `IsFull` is true, the next `Push` returns
`false` leaving the entire state (cursors and all slots) unchanged, and a
subsequent `Pop` still succeeds and returns the oldest pushed value. -/
theorem C5_full_queue_rejects_push (Value : Type) (d : Value) (c : Nat)
    (init : Nat → Value) (vs : List Value) (w : Value)
    (hc : 2 ≤ c) (hlen : vs.length = c - 1) :
    IsFull (pushSeq vs (Init c init)) = true ∧
    Push w (pushSeq vs (Init c init)) = (some false, pushSeq vs (Init c init)) ∧
    (Pop (pushSeq vs (Init c init))).1 = true ∧
    (Pop (pushSeq vs (Init c init))).2.1 = some (vs.getD 0 d) := by
  obtain ⟨h1, h2, h3, h4, h5⟩ :=
    pushSeq_spec d vs (Init c init) rfl (by show 0 + vs.length + 1 ≤ c; omega)
  have h2b : (pushSeq vs (Init c init)).next_write_ = c - 1 := by
    rw [h2]; show 0 + vs.length = c - 1; omega
  have h3b : (pushSeq vs (Init c init)).capacity_ = c := h3
  have hAdv : (pushSeq vs (Init c init)).Advance
      (pushSeq vs (Init c init)).next_write_ = 0 := by
    rw [Advance_eq, h2b, h3b, if_neg (by omega)]
  have hfull : (pushSeq vs (Init c init)).first_ =
      (pushSeq vs (Init c init)).Advance (pushSeq vs (Init c init)).next_write_ := by
    rw [hAdv, h1]
  have hpopne : ¬ (pushSeq vs (Init c init)).first_ =
      (pushSeq vs (Init c init)).next_write_ := by
    rw [h1, h2b]; omega
  have hpop : Pop (pushSeq vs (Init c init)) =
      (true, some ((pushSeq vs (Init c init)).queue_
          (pushSeq vs (Init c init)).first_),
        { pushSeq vs (Init c init) with
          first_ := (pushSeq vs (Init c init)).Advance
            (pushSeq vs (Init c init)).first_ }) := by
    rw [Pop_eq, if_neg hpopne]
  have hval : (pushSeq vs (Init c init)).queue_
      (pushSeq vs (Init c init)).first_ = vs.getD 0 d := by
    rw [h1]
    have := h5 0 (by omega)
    simpa using this
  refine ⟨by simp [IsFull, hfull], by rw [Push_eq, if_pos hfull], ?_, ?_⟩
  · rw [hpop]
  · rw [hpop]
    simp [hval]

open SingleProducerSingleConsumerBoundedLockLessQueue in
/-- Witness for C5: two pushes fill a capacity-3 queue. -/
theorem C5_full_queue_rejects_push_witness :
    (2 ≤ 3 ∧ ([7, 8] : List Nat).length = 3 - 1) ∧
    (IsFull (pushSeq [7, 8] (Init 3 (fun _ => (0 : Nat)))) = true ∧
     Push 9 (pushSeq [7, 8] (Init 3 (fun _ => (0 : Nat)))) =
       (some false, pushSeq [7, 8] (Init 3 (fun _ => (0 : Nat)))) ∧
     (Pop (pushSeq [7, 8] (Init 3 (fun _ => (0 : Nat))))).1 = true ∧
     (Pop (pushSeq [7, 8] (Init 3 (fun _ => (0 : Nat))))).2.1 =
       some (([7, 8] : List Nat).getD 0 0)) :=
  ⟨⟨by decide, by decide⟩,
    C5_full_queue_rejects_push Nat 0 3 (fun _ => 0) [7, 8] 9 (by decide) (by decide)⟩

open SingleProducerSingleConsumerBoundedLockLessQueue in
/-- **C10**: a bounded queue constructed with capacity argument 1 reports
usable capacity 0; in every reachable state of such a queue every `Push`
returns `false` without changing the state and both `IsEmpty` and `IsFull`
return true; and for every capacity `c ≥ 1` every sequence of `Push`/`Pop`
operations keeps both cursors in `[0, c)`. -/
theorem C10_degenerate_capacity_and_cursor_range (Value : Type)
    (init : Nat → Value) :
    GetCapacity (Init 1 init) = 0 ∧
    (∀ (ops : List (BoundedOp Value)) (v : Value),
      Push v (BoundedExec ops (Init 1 init)) =
        (some false, BoundedExec ops (Init 1 init)) ∧
      IsEmpty (BoundedExec ops (Init 1 init)) = true ∧
      IsFull (BoundedExec ops (Init 1 init)) = true) ∧
    (∀ (c : Nat), 1 ≤ c → ∀ ops : List (BoundedOp Value),
      (BoundedExec ops (Init c init)).first_ < c ∧
      (BoundedExec ops (Init c init)).next_write_ < c) := by
  have hmain : ∀ (c : Nat), 1 ≤ c → ∀ ops : List (BoundedOp Value),
      (BoundedExec ops (Init c init)).capacity_ = c ∧
      (BoundedExec ops (Init c init)).first_ < c ∧
      (BoundedExec ops (Init c init)).next_write_ < c := by
    intro c hc ops
    exact boundedExec_cursors ops (Init c init) hc hc hc
  refine ⟨rfl, ?_, fun c hc ops => (hmain c hc ops).2⟩
  intro ops v
  obtain ⟨hcap, hf, hn⟩ := hmain 1 (by omega) ops
  have hf0 : (BoundedExec ops (Init 1 init)).first_ = 0 := by omega
  have hn0 : (BoundedExec ops (Init 1 init)).next_write_ = 0 := by omega
  have hAdv : (BoundedExec ops (Init 1 init)).Advance
      (BoundedExec ops (Init 1 init)).next_write_ = 0 := by
    rw [Advance_eq, if_neg (by omega)]
  have hfull : (BoundedExec ops (Init 1 init)).first_ =
      (BoundedExec ops (Init 1 init)).Advance
        (BoundedExec ops (Init 1 init)).next_write_ := by
    rw [hAdv, hf0]
  exact ⟨by rw [Push_eq, if_pos hfull],
    by simp [SingleProducerSingleConsumerBoundedLockLessQueue.IsEmpty, hf0, hn0],
    by simp [IsFull, hfull]⟩

open SingleProducerSingleConsumerBoundedLockLessQueue in
/-- Witness for C10: the cursor-range clause at capacity 2 after a push
and a pop. -/
theorem C10_degenerate_capacity_and_cursor_range_witness :
    (1 : Nat) ≤ 2 ∧
    ((BoundedExec [BoundedOp.push 5, BoundedOp.pop]
        (Init 2 (fun _ => (0 : Nat)))).first_ < 2 ∧
     (BoundedExec [BoundedOp.push 5, BoundedOp.pop]
        (Init 2 (fun _ => (0 : Nat)))).next_write_ < 2) :=
  ⟨by decide,
    (C10_degenerate_capacity_and_cursor_range Nat (fun _ => 0)).2.2 2 (by decide)
      [BoundedOp.push 5, BoundedOp.pop]⟩

end lockless
